import Mathlib

set_option maxHeartbeats 1000000

namespace LocalChat

/-!
A shallow embedding of the local-chat repository: the relay server
(request validation, upstream call construction, SSE stream relay in
src/server.ts) and the browser client (SSE buffer reassembly, event
dispatch and markdown-ish rendering in the client script).  Machine
strings are Lean strings or lists of characters; JavaScript values
reaching the validator are modelled by a JSON value type.
-/

/-- A JSON value, as produced by JSON.parse and fed to the request
validator.  Numbers are modelled as integers (the claims never involve
fractional payloads). -/
inductive Json where
  | null
  | bool (b : Bool)
  | num (n : Int)
  | str (s : String)
  | arr (elems : List Json)
  | obj (fields : List (String × Json))

/-- Field lookup in an object: JSON.parse keeps the last duplicate key,
so the last matching binding wins. -/
def getLastField : List (String × Json) → String → Option Json
  | [], _ => none
  | (k, v) :: rest, key =>
    match getLastField rest key with
    | some r => some r
    | none => if k = key then some v else none

/-- JavaScript member access `j.key`: `none` models `undefined`. -/
def Json.get? : Json → String → Option Json
  | .obj fields, key => getLastField fields key
  | _, _ => none

/-- JavaScript truthiness of a JSON value. -/
def Json.truthy : Json → Bool
  | .null => false
  | .bool b => b
  | .num n => n != 0
  | .str s => s != ""
  | .arr _ => true
  | .obj _ => true

/-- Whether `typeof v` is the string "object" (true for null, arrays and
objects in JavaScript). -/
def Json.isObjectType : Json → Bool
  | .null => true
  | .arr _ => true
  | .obj _ => true
  | _ => false

/-- Whether the value is a JSON object literal (not an array). -/
def Json.isObjLiteral : Json → Bool
  | .obj _ => true
  | _ => false

/-- Whether the value is a string. -/
def Json.isStr : Json → Bool
  | .str _ => true
  | _ => false

/-- Truthiness of a possibly-undefined value. -/
def truthyOpt : Option Json → Bool
  | none => false
  | some j => j.truthy

/-- The check `!v || typeof v !== "object"` from the validator, negated:
a truthy value of object type (an array or an object; null is falsy). -/
def jsonIsJsObject (j : Json) : Bool :=
  j.truthy && j.isObjectType

/-- The supported model identifiers (MODELS in src/server.ts). -/
def MODELS : List String :=
  ["claude-opus-4-5-20250514", "claude-sonnet-4-20250514", "claude-haiku-3-5-20241022"]

/-- A chat message role. -/
inductive Role where
  | user
  | assistant
deriving DecidableEq, Repr

/-- A chat message, after validation. -/
structure Message where
  role : Role
  content : String
deriving DecidableEq, Repr

/-- A validated chat request (interface ChatRequest in src/server.ts). -/
structure ChatRequest where
  model : String
  system : String
  messages : List Message
deriving DecidableEq, Repr

/-- The result of validateRequest: either valid data or an error string. -/
inductive ValidationResult where
  | ok (data : ChatRequest)
  | err (error : String)
deriving DecidableEq, Repr

/-- Whether a validation result is a success. -/
def ValidationResult.isOk : ValidationResult → Bool
  | .ok _ => true
  | .err _ => false

/-- The model-constraint error string.  The source builds it as
`Invalid model. Must be one of: ` followed by MODELS joined with a comma
and a space; the joined literal is written out here. -/
def modelErrMsg : String :=
  "Invalid model. Must be one of: claude-opus-4-5-20250514, claude-sonnet-4-20250514, claude-haiku-3-5-20241022"

/-- Error string for a message element that is not an object. -/
def msgObjErr : String := "Each message must be an object"

/-- Error string for a message whose role is neither user nor assistant. -/
def msgRoleErr : String := "Message role must be \x27user\x27 or \x27assistant\x27"

/-- Error string for a message whose content is not a string. -/
def msgContentErr : String := "Message content must be a string"

/-- The role checks `msg.role !== "user"` / `!== "assistant"`: returns
the recognised role, or none when the checks fail. -/
def roleOf : Option Json → Option Role
  | some (.str "user") => some Role.user
  | some (.str "assistant") => some Role.assistant
  | _ => none

/-- String extraction with the JavaScript default: a missing or
non-string value collapses to the empty string (used where the source
writes `(system as string) || ""` after the type guard, and for field
reads that are known to be strings). -/
def strOf : Option Json → String
  | some (.str s) => s
  | _ => ""

/-- The check `!model || !MODELS.includes(model)`, negated: the value is
a (truthy) string and a supported model identifier. -/
def isSupportedModelOpt : Option Json → Bool
  | some (.str s) => MODELS.contains s
  | _ => false

/-- The check `system !== undefined && typeof system !== "string"`,
negated: system is absent, or present and a string. -/
def systemOkB : Option Json → Bool
  | none => true
  | some j => j.isStr

/-- The per-message validation loop of validateRequest
(src/server.ts lines 169-179): checks each message in order and
short-circuits on the first failure, otherwise returns the messages. -/
def validateMessages : List Json → Except String (List Message)
  | [] => Except.ok []
  | msg :: rest =>
    if !(jsonIsJsObject msg) then Except.error msgObjErr
    else
      match roleOf (msg.get? "role") with
      | none => Except.error msgRoleErr
      | some r =>
        match msg.get? "content" with
        | some (.str c) =>
          match validateMessages rest with
          | Except.error e => Except.error e
          | Except.ok ms => Except.ok (⟨r, c⟩ :: ms)
        | _ => Except.error msgContentErr

/-- validateRequest (src/server.ts lines 147-185): checks body shape,
model, system, messages shape, then each message, short-circuiting at
the first failure; on success returns the normalized ChatRequest with a
missing system defaulted to the empty string. -/
def validateRequest (body : Json) : ValidationResult :=
  if !(jsonIsJsObject body) then ValidationResult.err "Invalid request body"
  else
    if !(truthyOpt (body.get? "model") && isSupportedModelOpt (body.get? "model")) then
      ValidationResult.err modelErrMsg
    else if !(systemOkB (body.get? "system")) then
      ValidationResult.err "System prompt must be a string"
    else
      match body.get? "messages" with
      | some (.arr msgs) =>
        match validateMessages msgs with
        | Except.error e => ValidationResult.err e
        | Except.ok ms =>
          ValidationResult.ok ⟨strOf (body.get? "model"), strOf (body.get? "system"), ms⟩
      | _ => ValidationResult.err "Messages must be an array"

/-!  Specification-side mirrors of the validator, used to compare the
code with the words of the spec (section 4.1).  Two readings of the
spec word "object" are rendered: the strict one, where an object is a
JSON object literal and an array is not an object, and the amended one,
where the body-shape and message-shape checks accept any non-null value
of JavaScript object type (object literal or array). -/

/-- Modelled from the spec: the first constraint a message element
violates, in the order shape, role, content — strict object reading. -/
def specMsgViolationStrict (m : Json) : Option String :=
  if !(m.isObjLiteral) then some msgObjErr
  else if (roleOf (m.get? "role")).isNone then some msgRoleErr
  else if !(match m.get? "content" with | some j => j.isStr | none => false) then some msgContentErr
  else none

/-- Modelled from the spec: the first constraint a message element
violates — amended object reading (array or object passes the shape check). -/
def specMsgViolation (m : Json) : Option String :=
  if !(jsonIsJsObject m) then some msgObjErr
  else if (roleOf (m.get? "role")).isNone then some msgRoleErr
  else if !(match m.get? "content" with | some j => j.isStr | none => false) then some msgContentErr
  else none

/-- The first violation among a list of messages, in order. -/
def firstViolation (f : Json → Option String) : List Json → Option String
  | [] => none
  | m :: rest =>
    match f m with
    | some e => some e
    | none => firstViolation f rest

/-- Modelled from the spec: the first violated constraint of the whole
request, in the order body shape, model, system type,
messages-is-sequence, each message — strict object reading. -/
def specViolationStrict (j : Json) : Option String :=
  if !(j.isObjLiteral) then some "Invalid request body"
  else if !(isSupportedModelOpt (j.get? "model")) then some modelErrMsg
  else if !(systemOkB (j.get? "system")) then some "System prompt must be a string"
  else
    match j.get? "messages" with
    | some (.arr ms) => firstViolation specMsgViolationStrict ms
    | _ => some "Messages must be an array"

/-- Modelled from the spec: the first violated constraint — amended
object reading at the body and message shape checks. -/
def specViolation (j : Json) : Option String :=
  if !(jsonIsJsObject j) then some "Invalid request body"
  else if !(isSupportedModelOpt (j.get? "model")) then some modelErrMsg
  else if !(systemOkB (j.get? "system")) then some "System prompt must be a string"
  else
    match j.get? "messages" with
    | some (.arr ms) => firstViolation specMsgViolation ms
    | _ => some "Messages must be an array"

/-- Modelled from the spec: a message element extracted into normal form. -/
def extractMessage (m : Json) : Message :=
  ⟨(roleOf (m.get? "role")).getD Role.user, strOf (m.get? "content")⟩

/-- Modelled from the spec: the normalized ChatRequest produced on
success, with a missing system defaulted to the empty string. -/
def specNormalize (j : Json) : ChatRequest :=
  ⟨strOf (j.get? "model"), strOf (j.get? "system"),
   (match j.get? "messages" with
    | some (.arr ms) => ms.map extractMessage
    | _ => [])⟩

/-- Modelled from the spec: the validator per section 4.1, strict
object reading. -/
def specValidateStrict (j : Json) : ValidationResult :=
  match specViolationStrict j with
  | some e => ValidationResult.err e
  | none => ValidationResult.ok (specNormalize j)

/-- Modelled from the spec: the validator per section 4.1, amended
object reading. -/
def specValidate (j : Json) : ValidationResult :=
  match specViolation j with
  | some e => ValidationResult.err e
  | none => ValidationResult.ok (specNormalize j)

/-- Modelled from the spec: well-formedness of a message element under
the strict object reading. -/
def specMsgOkStrict (m : Json) : Bool :=
  m.isObjLiteral && (roleOf (m.get? "role")).isSome
    && (match m.get? "content" with | some j => j.isStr | none => false)

/-- Modelled from the spec: well-formedness of the whole request under
the strict object reading — the conditions under which the spec says
validation succeeds. -/
def specWellFormedStrict (j : Json) : Bool :=
  j.isObjLiteral && isSupportedModelOpt (j.get? "model") && systemOkB (j.get? "system")
    && (match j.get? "messages" with
        | some (.arr ms) => ms.all specMsgOkStrict
        | _ => false)

/-! The upstream call built by handleChat (src/server.ts lines 206-233):
system content block with a 1-hour ephemeral cache hint when the system
prompt is non-empty, per-message text blocks with the cache hint on the
second-to-last message, and max_tokens fixed at 8192. -/

/-- A content block sent upstream: its text and whether it carries the
ephemeral 1-hour cache_control directive. -/
structure TextBlock where
  text : String
  cached : Bool
deriving DecidableEq, Repr

/-- A formatted message sent upstream. -/
structure FormattedMessage where
  role : Role
  content : List TextBlock
deriving DecidableEq, Repr

/-- The argument of client.messages.stream. -/
structure UpstreamCall where
  model : String
  maxTokens : Nat
  system : List TextBlock
  messages : List FormattedMessage
deriving DecidableEq, Repr

/-- Indexed message formatting: the block of message i is cached when
`i === messages.length - 2` (computed over the integers, as in
JavaScript). -/
def formatMessagesFrom (total : Nat) : Nat → List Message → List FormattedMessage
  | _, [] => []
  | i, m :: rest =>
    ⟨m.role, [⟨m.content, (i : Int) = (total : Int) - 2⟩]⟩ :: formatMessagesFrom total (i + 1) rest

/-- The upstream call for a validated request. -/
def buildUpstreamCall (r : ChatRequest) : UpstreamCall :=
  { model := r.model
    maxTokens := 8192
    system := if r.system != "" then [⟨r.system, true⟩] else []
    messages := formatMessagesFrom r.messages.length 0 r.messages }

/-- The outcome of the non-streaming part of handleChat: an immediate
400 response, or a started upstream stream. -/
inductive HandleChatResult where
  | badRequest (status : Nat) (error : String)
  | streamResp (call : UpstreamCall)
deriving DecidableEq, Repr

/-- handleChat up to the point the upstream call is made
(src/server.ts lines 187-233).  The input is the parse result of the
request body: `none` when the body is not valid JSON (req.json threw). -/
def handleChatSetup : Option Json → HandleChatResult
  | none => HandleChatResult.badRequest 400 "Invalid JSON"
  | some body =>
    match validateRequest body with
    | ValidationResult.err e => HandleChatResult.badRequest 400 e
    | ValidationResult.ok r => HandleChatResult.streamResp (buildUpstreamCall r)

/-- The upstream call a handleChat outcome performs, if any. -/
def upstreamCallOf : HandleChatResult → Option UpstreamCall
  | HandleChatResult.badRequest _ _ => none
  | HandleChatResult.streamResp call => some call

/-! The streaming relay (src/server.ts lines 237-262): the ReadableStream
start callback iterates the upstream stream inside try/catch/finally,
enqueues a delta frame per upstream text delta, a done frame at
message_stop, one error frame when iteration raises, and closes the
controller in the finally clause. -/

/-- An upstream delta payload (event.delta). -/
inductive UpstreamDelta where
  | textDelta (text : String)
  | otherDelta
deriving DecidableEq, Repr

/-- An upstream stream event. -/
inductive UpstreamEvent where
  | contentBlockDelta (delta : UpstreamDelta)
  | messageStop
  | otherEvent
deriving DecidableEq, Repr

/-- Token usage accounting reported by the upstream final message. -/
structure Usage where
  inputTokens : Nat
  outputTokens : Nat
  cacheReadInputTokens : Option Nat
deriving DecidableEq, Repr

/-- A client-facing stream event (the StreamEvent wire union). -/
inductive StreamEvent where
  | delta (text : String)
  | done (usage : Usage)
  | error (error : String)
deriving DecidableEq, Repr

/-- One run of the upstream stream as observed by the relay loop: the
events the iterator yielded, and, when iteration raised, the message of
the raised error (after the listed events). -/
structure UpstreamOutcome where
  events : List UpstreamEvent
  failure : Option String
deriving DecidableEq, Repr

/-- An action performed on the outbound stream controller. -/
inductive Action where
  | enqueue (e : StreamEvent)
  | close
deriving DecidableEq, Repr

/-- The frames enqueued by the for-await loop body for a list of
upstream events: a delta per text delta, a done (with the final usage)
at message_stop, nothing for other events. -/
def relayEvents (finalUsage : Usage) : List UpstreamEvent → List StreamEvent
  | [] => []
  | UpstreamEvent.contentBlockDelta (UpstreamDelta.textDelta t) :: rest =>
    StreamEvent.delta t :: relayEvents finalUsage rest
  | UpstreamEvent.contentBlockDelta UpstreamDelta.otherDelta :: rest =>
    relayEvents finalUsage rest
  | UpstreamEvent.messageStop :: rest =>
    StreamEvent.done finalUsage :: relayEvents finalUsage rest
  | UpstreamEvent.otherEvent :: rest => relayEvents finalUsage rest

/-- The full action trace of the stream start callback: the try block
enqueues the relayed frames; if iteration raised, the catch clause
enqueues one error frame; the finally clause closes the controller. -/
def startBody (u : UpstreamOutcome) (finalUsage : Usage) : List Action :=
  (match u.failure with
   | none => (relayEvents finalUsage u.events).map Action.enqueue
   | some msg =>
     (relayEvents finalUsage u.events).map Action.enqueue
       ++ [Action.enqueue (StreamEvent.error msg)])
  ++ [Action.close]

/-- The frames enqueued by an action trace, in order. -/
def enqueuedFrames (acts : List Action) : List StreamEvent :=
  acts.filterMap fun a =>
    match a with
    | Action.enqueue e => some e
    | Action.close => none

/-- Whether an action is a close. -/
def isClose : Action → Bool
  | Action.close => true
  | _ => false

/-- The number of closes in an action trace. -/
def closeCount (acts : List Action) : Nat :=
  acts.countP isClose

/-- Whether a frame is a terminal event (done or error). -/
def isTerminal : StreamEvent → Bool
  | StreamEvent.done _ => true
  | StreamEvent.error _ => true
  | StreamEvent.delta _ => false

/-- Whether a frame is a delta event. -/
def isDeltaFrame : StreamEvent → Bool
  | StreamEvent.delta _ => true
  | _ => false

/-- Whether a frame is an error event. -/
def isErrorFrame : StreamEvent → Bool
  | StreamEvent.error _ => true
  | _ => false

/-- Whether an upstream event is message_stop. -/
def isStop : UpstreamEvent → Bool
  | UpstreamEvent.messageStop => true
  | _ => false

/-- The text fragments of the upstream's text deltas, in order. -/
def upstreamTexts (evs : List UpstreamEvent) : List String :=
  evs.filterMap fun e =>
    match e with
    | UpstreamEvent.contentBlockDelta (UpstreamDelta.textDelta t) => some t
    | _ => none

/-- The texts of the delta frames of a frame list, in order. -/
def deltaTexts (frames : List StreamEvent) : List String :=
  frames.filterMap fun f =>
    match f with
    | StreamEvent.delta t => some t
    | _ => none

/-- Protocol conformance of an upstream run: a run that raised yielded
no message_stop; a run that completed normally ended with its single
message_stop. -/
def UpstreamOutcome.wellFormed (u : UpstreamOutcome) : Bool :=
  match u.failure with
  | some _ => u.events.countP isStop = 0
  | none =>
    u.events.countP isStop = 1 && u.events.getLast? = some UpstreamEvent.messageStop

/-! A JSON parser modelling the platform JSON.parse used by the client
on each `data: ` line.  It accepts null, booleans, integer numerals,
strings with the standard escapes, arrays and objects, and requires the
whole input to be consumed; anything else is a parse failure.  Recursion
is fuelled; parseJson supplies ample fuel. -/

/-- Skip JSON whitespace. -/
def skipWs : List Char → List Char
  | [] => []
  | c :: rest =>
    if c = ' ' || c = '\t' || c = '\n' || c = '\r' then skipWs rest else c :: rest

/-- The numeric value of a hex digit, if it is one. -/
def hexVal (c : Char) : Option Nat :=
  if c.isDigit then some (c.toNat - 48)
  else if 'a' ≤ c && c ≤ 'f' then some (c.toNat - 87)
  else if 'A' ≤ c && c ≤ 'F' then some (c.toNat - 55)
  else none

/-- The character denoted by a one-letter JSON escape, if valid: the
quote, backslash and slash stand for themselves, the letters n, t, r,
b, f for the usual control characters. -/
def escCharOf (e : Char) : Option Char :=
  if e = 'n' then some '\n'
  else if e = 't' then some '\t'
  else if e = 'r' then some '\r'
  else if e = 'b' then some (Char.ofNat 8)
  else if e = 'f' then some (Char.ofNat 12)
  else if e = '"' || e = '\\' || e = '/' then some e
  else none

/-- Parse the body of a JSON string after the opening quote: returns the
content and the remainder after the closing quote.  Raw control
characters are rejected, as JSON.parse rejects them. -/
def parseStrBody : List Char → Option (List Char × List Char)
  | [] => none
  | '"' :: rest => some ([], rest)
  | '\\' :: esc =>
    match esc with
    | 'u' :: a :: b :: c :: d :: rest =>
      match hexVal a, hexVal b, hexVal c, hexVal d with
      | some ha, some hb, some hc, some hd =>
        match parseStrBody rest with
        | some (cs, r) => some (Char.ofNat (((ha * 16 + hb) * 16 + hc) * 16 + hd) :: cs, r)
        | none => none
      | _, _, _, _ => none
    | e :: rest =>
      match escCharOf e with
      | some ch =>
        match parseStrBody rest with
        | some (cs, r) => some (ch :: cs, r)
        | none => none
      | none => none
    | [] => none
  | c :: rest =>
    if c.toNat < 32 then none
    else
      match parseStrBody rest with
      | some (cs, r) => some (c :: cs, r)
      | none => none

/-- Consume a run of decimal digits, accumulating their value. -/
def digitsToNat (acc : Nat) : List Char → Nat × List Char
  | [] => (acc, [])
  | c :: rest =>
    if c.isDigit then digitsToNat (acc * 10 + (c.toNat - 48)) rest else (acc, c :: rest)

/-- Parse an integer numeral with optional leading minus.  Requires at
least one digit. -/
def parseIntLit : List Char → Option (Int × List Char)
  | '-' :: rest =>
    match rest with
    | c :: _ =>
      if c.isDigit then
        match digitsToNat 0 rest with
        | (n, r) => some (-(n : Int), r)
      else none
    | [] => none
  | c :: rest =>
    if c.isDigit then
      match digitsToNat 0 (c :: rest) with
      | (n, r) => some ((n : Int), r)
    else none
  | [] => none

mutual

/-- Parse one JSON value. -/
def parseValue : Nat → List Char → Option (Json × List Char)
  | 0, _ => none
  | fuel + 1, s =>
    match skipWs s with
    | 'n' :: 'u' :: 'l' :: 'l' :: rest => some (Json.null, rest)
    | 't' :: 'r' :: 'u' :: 'e' :: rest => some (Json.bool true, rest)
    | 'f' :: 'a' :: 'l' :: 's' :: 'e' :: rest => some (Json.bool false, rest)
    | '"' :: rest =>
      match parseStrBody rest with
      | some (cs, r) => some (Json.str (String.mk cs), r)
      | none => none
    | '[' :: rest => parseElems fuel rest
    | '\x7b' :: rest => parseFields fuel rest
    | other =>
      match parseIntLit other with
      | some (n, r) => some (Json.num n, r)
      | none => none

/-- Parse the elements of an array after the opening bracket. -/
def parseElems : Nat → List Char → Option (Json × List Char)
  | 0, _ => none
  | fuel + 1, s =>
    match skipWs s with
    | ']' :: rest => some (Json.arr [], rest)
    | other =>
      match parseValue fuel other with
      | none => none
      | some (v, rest) => parseElemsTail fuel [v] rest

/-- Parse the rest of an array after at least one element. -/
def parseElemsTail : Nat → List Json → List Char → Option (Json × List Char)
  | 0, _, _ => none
  | fuel + 1, acc, s =>
    match skipWs s with
    | ',' :: rest =>
      match parseValue fuel rest with
      | none => none
      | some (v, rest2) => parseElemsTail fuel (acc ++ [v]) rest2
    | ']' :: rest => some (Json.arr acc, rest)
    | _ => none

/-- Parse the fields of an object after the opening brace. -/
def parseFields : Nat → List Char → Option (Json × List Char)
  | 0, _ => none
  | fuel + 1, s =>
    match skipWs s with
    | '\x7d' :: rest => some (Json.obj [], rest)
    | '"' :: rest =>
      match parseStrBody rest with
      | none => none
      | some (k, rest2) =>
        match skipWs rest2 with
        | ':' :: rest3 =>
          match parseValue fuel rest3 with
          | none => none
          | some (v, rest4) => parseFieldsTail fuel [(String.mk k, v)] rest4
        | _ => none
    | _ => none

/-- Parse the rest of an object after at least one field. -/
def parseFieldsTail : Nat → List (String × Json) → List Char → Option (Json × List Char)
  | 0, _, _ => none
  | fuel + 1, acc, s =>
    match skipWs s with
    | ',' :: rest =>
      match skipWs rest with
      | '"' :: rest1 =>
        match parseStrBody rest1 with
        | none => none
        | some (k, rest2) =>
          match skipWs rest2 with
          | ':' :: rest3 =>
            match parseValue fuel rest3 with
            | none => none
            | some (v, rest4) => parseFieldsTail fuel (acc ++ [(String.mk k, v)]) rest4
          | _ => none
      | _ => none
    | '\x7d' :: rest => some (Json.obj acc, rest)
    | _ => none

end

/-- JSON.parse: parse a full value and require the remainder to be
whitespace only. -/
def parseJsonL (s : List Char) : Option Json :=
  match parseValue (2 * s.length + 4) s with
  | some (v, rest) => if (skipWs rest).isEmpty then some v else none
  | none => none

/-! The client stream consumer (streamResponse in the client script,
lines 103-197): a buffer of undecoded text is grown with each network
read, split on newlines, the trailing partial line kept for the next
read, and each complete `data: ` line parsed as JSON and dispatched on
its type field.  A dispatched error event raises; the surrounding catch
of the per-line try re-raises it only when its message is non-empty and
does not contain "JSON" (JSON.parse failures are recognised — and
swallowed — by their message containing "JSON", which the platform
guarantees for SyntaxError from JSON.parse). -/

/-- Whether a list has a given (possibly empty) contiguous sublist —
JavaScript String.prototype.includes. -/
def subOccurs (sub : List Char) : List Char → Bool
  | [] => sub.isEmpty
  | c :: rest => sub.isPrefixOf (c :: rest) || subOccurs sub rest

/-- String.prototype.includes on strings. -/
def strIncludes (s sub : String) : Bool :=
  subOccurs sub.toList s.toList

/-- An event as logged by the client dispatch (instrumentation of the
observable dispatch steps; the source mutates the DOM and console). -/
inductive ClientEvent where
  | deltaEv (text : String)
  | doneEv
  | errorEv (msg : String)
  | otherEv
deriving DecidableEq, Repr

/-- The mutable state of the client read loop: the accumulated reply
text and the log of dispatched events. -/
structure LoopState where
  fullContent : List Char
  log : List ClientEvent
deriving DecidableEq, Repr

/-- The SSE line marker `data: `. -/
def dataMarker : List Char := String.toList "data: "

/-- Handling of one complete line (client script lines 147-168).  The
second component is the message of an error that escaped the per-line
catch, terminating the read loop. -/
def processLine (st : LoopState) (line : List Char) : LoopState × Option (List Char) :=
  if !(dataMarker.isPrefixOf line) then (st, none)
  else
    match parseJsonL (line.drop 6) with
    | none => (st, none)
    | some data =>
      match data.get? "type" with
      | some (Json.str "delta") =>
        let t := strOf (data.get? "text")
        ({ fullContent := st.fullContent ++ t.toList
           log := st.log ++ [ClientEvent.deltaEv t] }, none)
      | some (Json.str "done") =>
        ({ st with log := st.log ++ [ClientEvent.doneEv] }, none)
      | some (Json.str "error") =>
        let m := strOf (data.get? "error")
        let st2 := { st with log := st.log ++ [ClientEvent.errorEv m] }
        if m != "" && !(strIncludes m "JSON") then (st2, some m.toList) else (st2, none)
      | _ => ({ st with log := st.log ++ [ClientEvent.otherEv] }, none)

/-- Process a list of complete lines in order, stopping at the first
escaped error. -/
def processLines (st : LoopState) : List (List Char) → LoopState × Option (List Char)
  | [] => (st, none)
  | l :: ls =>
    match processLine st l with
    | (st2, none) => processLines st2 ls
    | (st2, some m) => (st2, some m)

/-- JavaScript String.prototype.split on a single newline character. -/
def splitNl : List Char → List (List Char)
  | [] => [[]]
  | c :: rest =>
    if c = '\n' then [] :: splitNl rest
    else
      match splitNl rest with
      | [] => [[c]]
      | l :: ls => (c :: l) :: ls

/-- Prepend text to the first piece of a split (the combining step when
buffered text is glued onto the next chunk before splitting). -/
def joinHead (x : List Char) : List (List Char) → List (List Char)
  | [] => [x]
  | h :: t => (x ++ h) :: t

/-- The buffered read-loop state: the retained partial line and the
inner loop state. -/
structure BufState where
  buffer : List Char
  loop : LoopState
deriving DecidableEq, Repr

/-- One network read (client script lines 140-169): append the chunk to
the buffer, split on newlines, keep the last (possibly incomplete) line
as the new buffer, and process the complete lines. -/
def feedChunk (st : BufState) (chunk : List Char) : BufState × Option (List Char) :=
  let lines := splitNl (st.buffer ++ chunk)
  let newBuf := lines.getLastD []
  match processLines st.loop lines.dropLast with
  | (lp, none) => (⟨newBuf, lp⟩, none)
  | (lp, some m) => (⟨newBuf, lp⟩, some m)

/-- Feed a sequence of network reads, stopping at the first escaped
error. -/
def feedAll (st : BufState) : List (List Char) → BufState × Option (List Char)
  | [] => (st, none)
  | c :: cs =>
    match feedChunk st c with
    | (st2, none) => feedAll st2 cs
    | (st2, some m) => (st2, some m)

/-- Concatenation of a list of chunks. -/
def listJoin : List (List Char) → List Char
  | [] => []
  | l :: ls => l ++ listJoin ls

/-! The rendering pipeline (client script lines 68-97): escapeHtml via a
detached div escapes the markup characters, then the markdown-ish
passes run on the escaped text: fenced code blocks, inline code spans,
paragraph wrapping. -/

/-- The backtick character. -/
def tickChar : Char := Char.ofNat 96

/-- Three backticks, the fence delimiter. -/
def tripleTick : List Char := [tickChar, tickChar, tickChar]

/-- The escaping a text node receives when serialised through innerHTML:
ampersand, less-than and greater-than become entities. -/
def escChar (c : Char) : List Char :=
  if c = '&' then String.toList "&amp;"
  else if c = '<' then String.toList "&lt;"
  else if c = '>' then String.toList "&gt;"
  else [c]

/-- escapeHtml (client script lines 69-73). -/
def escapeHtmlL : List Char → List Char
  | [] => []
  | c :: rest => escChar c ++ escapeHtmlL rest

/-- Split at the first occurrence of three backticks: the text before
it and the text after it. -/
def splitFirstTriple : List Char → Option (List Char × List Char)
  | [] => none
  | c :: rest =>
    if tripleTick.isPrefixOf (c :: rest) then some ([], rest.drop 2)
    else
      match splitFirstTriple rest with
      | some (pre, post) => some (c :: pre, post)
      | none => none

/-- A regex word character. -/
def isWordChar (c : Char) : Bool :=
  c.isAlphanum || c = '_'

/-- Consume the optional single newline after the language tag (the
`\n?` of the fence pattern). -/
def stripLeadNl : List Char → List Char
  | [] => []
  | c :: rest => if c = '\n' then rest else c :: rest

/-- The global replace of the fenced-code-block pattern (three
backticks, a word-character language tag, an optional newline, a lazy
body, three backticks) by a pre/code block holding the body.  When the
leftmost fence has no closing fence the pattern matches nowhere and the
text is unchanged. -/
def codeBlocksPass : Nat → List Char → List Char
  | 0, s => s
  | fuel + 1, s =>
    match splitFirstTriple s with
    | none => s
    | some (pre, afterOpen) =>
      match splitFirstTriple (stripLeadNl (afterOpen.dropWhile isWordChar)) with
      | none => s
      | some (code, afterClose) =>
        pre ++ String.toList "<pre><code>" ++ code ++ String.toList "</code></pre>"
          ++ codeBlocksPass fuel afterClose

/-- Split at the first backtick: the text before it and the text after it. -/
def splitFirstTick : List Char → Option (List Char × List Char)
  | [] => none
  | c :: rest =>
    if c = tickChar then some ([], rest)
    else
      match splitFirstTick rest with
      | some (pre, post) => some (c :: pre, post)
      | none => none

/-- The global replace of the inline-code pattern (a backtick, one or
more non-backtick characters, a backtick) by a code span.  A backtick
immediately followed by another backtick cannot open a span; a backtick
with no closing backtick matches nothing. -/
def inlineCodePass : Nat → List Char → List Char
  | 0, s => s
  | fuel + 1, s =>
    match splitFirstTick s with
    | none => s
    | some (pre, after) =>
      let content := after.takeWhile (fun c => c != tickChar)
      let rest := after.dropWhile (fun c => c != tickChar)
      match rest with
      | [] => s
      | _ :: rest2 =>
        if content.isEmpty then
          pre ++ [tickChar] ++ inlineCodePass fuel after
        else
          pre ++ String.toList "<code>" ++ content ++ String.toList "</code>"
            ++ inlineCodePass fuel rest2

/-- Split at the first occurrence of two consecutive newlines. -/
def splitFirstParaBreak : List Char → Option (List Char × List Char)
  | [] => none
  | c :: rest =>
    match rest with
    | c2 :: rest2 =>
      if c = '\n' && c2 = '\n' then some ([], rest2)
      else
        match splitFirstParaBreak rest with
        | some (pre, post) => some (c :: pre, post)
        | none => none
    | [] => none

/-- JavaScript String.prototype.split on the two-newline separator,
scanning left to right without overlap. -/
def splitParas : Nat → List Char → List (List Char)
  | 0, s => [s]
  | fuel + 1, s =>
    match splitFirstParaBreak s with
    | none => [s]
    | some (pre, post) => pre :: splitParas fuel post

/-- Wrap a paragraph piece: pieces that trim to nothing are dropped,
the others are wrapped in a p element. -/
def wrapPara (p : List Char) : List Char :=
  if p.any (fun c => !c.isWhitespace) then
    String.toList "<p>" ++ p ++ String.toList "</p>"
  else []

/-- The paragraph pass: split on blank lines, wrap, join. -/
def paragraphPass (s : List Char) : List Char :=
  listJoin ((splitParas (s.length + 1) s).map wrapPara)

/-- formatContent (client script lines 75-97): empty input renders as
the empty string; otherwise escape first, then code blocks, then inline
code, then paragraphs. -/
def formatContentL (text : List Char) : List Char :=
  if text.isEmpty then []
  else
    let escaped := escapeHtmlL text
    let blocks := codeBlocksPass (escaped.length + 1) escaped
    let inl := inlineCodePass (blocks.length + 1) blocks
    paragraphPass inl

/-- formatContent on strings. -/
def formatContent (text : String) : String :=
  String.mk (formatContentL text.toList)

/-- The successor constraint that makes markup injection impossible: a
less-than sign is immediately followed by one of the characters the
trusted tags (pre, code, p and their closers) use. -/
def ltNext (a b : Char) : Prop :=
  a = '<' → b = 'p' ∨ b = 'c' ∨ b = '/'

/-- Boolean version of the successor constraint. -/
def ltNextB (a b : Char) : Bool :=
  if a = '<' then (b = 'p' || b = 'c' || b = '/') else true

/-- Boolean chain check of the successor constraint over a text. -/
def chainB : List Char → Bool
  | [] => true
  | [_] => true
  | a :: b :: rest => ltNextB a b && chainB (b :: rest)

/-- Tag safety of rendered output: every less-than sign is immediately
followed by p, c or a slash (so it can only open one of the trusted
tags, never a script tag), and the text does not end in a dangling
less-than sign. -/
def tagSafe (s : List Char) : Prop :=
  List.Chain' ltNext s ∧ s.getLast? ≠ some '<'

/-- The observable result of one streamResponse run: the transcript
after the run, the final innerHTML of the assistant message element,
the escaped error (if the read loop was terminated by one), and the
dispatch log. -/
structure ClientResult where
  transcript : List Message
  rendered : List Char
  raised : Option (List Char)
  log : List ClientEvent
deriving DecidableEq, Repr

/-- The trailing-buffer handling after the stream ends (client script
lines 172-183): a final buffered `data: ` line is parsed best-effort
and only a delta is applied; parse failures are ignored. -/
def finishBuffer (st : LoopState) (buffer : List Char) : LoopState :=
  if dataMarker.isPrefixOf buffer then
    match parseJsonL (buffer.drop 6) with
    | some data =>
      match data.get? "type" with
      | some (Json.str "delta") =>
        let t := strOf (data.get? "text")
        { fullContent := st.fullContent ++ t.toList
          log := st.log ++ [ClientEvent.deltaEv t] }
      | _ => st
    | none => st
  else st

/-- One streamResponse run over a given sequence of network reads,
starting from a transcript that already holds the history and the just
added user turn (client script lines 103-197).  On success the
assembled assistant text is pushed onto the transcript; when an error
escaped the read loop, the catch renders `Error: ` plus the message and
the transcript is left unchanged. -/
def consumeStream (initial : List Message) (chunks : List (List Char)) : ClientResult :=
  match feedAll ⟨[], ⟨[], []⟩⟩ chunks with
  | (bs, some m) =>
    ⟨initial, formatContentL (String.toList "Error: " ++ m), some m, bs.loop.log⟩
  | (bs, none) =>
    let st := finishBuffer bs.loop bs.buffer
    ⟨initial ++ [⟨Role.assistant, String.mk st.fullContent⟩],
     formatContentL st.fullContent, none, st.log⟩

/-! Helper lemmas about the relay loop. -/

theorem relayEvents_append (usage : Usage) (a b : List UpstreamEvent) :
    relayEvents usage (a ++ b) = relayEvents usage a ++ relayEvents usage b := by
  induction a with
  | nil => rfl
  | cons e rest ih =>
    cases e with
    | contentBlockDelta d => cases d <;> simp [relayEvents, ih]
    | messageStop => simp [relayEvents, ih]
    | otherEvent => simp [relayEvents, ih]

theorem relayEvents_all_delta (usage : Usage) (evs : List UpstreamEvent)
    (h : evs.countP isStop = 0) :
    (relayEvents usage evs).all isDeltaFrame = true := by
  induction evs with
  | nil => rfl
  | cons e rest ih =>
    cases e with
    | contentBlockDelta d =>
      have hr : rest.countP isStop = 0 := by
        simpa [List.countP_cons, isStop] using h
      cases d with
      | textDelta t => simp [relayEvents, isDeltaFrame, ih hr]
      | otherDelta => simpa [relayEvents] using ih hr
    | messageStop => simp [List.countP_cons, isStop] at h
    | otherEvent =>
      have hr : rest.countP isStop = 0 := by
        simpa [List.countP_cons, isStop] using h
      simpa [relayEvents] using ih hr

theorem relayEvents_terminal_count (usage : Usage) (evs : List UpstreamEvent) :
    (relayEvents usage evs).countP isTerminal = evs.countP isStop := by
  induction evs with
  | nil => rfl
  | cons e rest ih =>
    cases e with
    | contentBlockDelta d =>
      cases d <;> simp [relayEvents, List.countP_cons, isTerminal, isStop, ih]
    | messageStop => simp [relayEvents, List.countP_cons, isTerminal, isStop, ih]
    | otherEvent => simp [relayEvents, List.countP_cons, isStop, ih]

theorem relayEvents_no_error (usage : Usage) (evs : List UpstreamEvent) :
    (relayEvents usage evs).countP isErrorFrame = 0 := by
  induction evs with
  | nil => rfl
  | cons e rest ih =>
    cases e with
    | contentBlockDelta d =>
      cases d <;> simp [relayEvents, List.countP_cons, isErrorFrame, ih]
    | messageStop => simp [relayEvents, List.countP_cons, isErrorFrame, ih]
    | otherEvent => simp [relayEvents, ih]

theorem deltaTexts_relayEvents (usage : Usage) (evs : List UpstreamEvent) :
    deltaTexts (relayEvents usage evs) = upstreamTexts evs := by
  induction evs with
  | nil => rfl
  | cons e rest ih =>
    cases e with
    | contentBlockDelta d =>
      cases d <;> simp [relayEvents, deltaTexts, upstreamTexts, List.filterMap_cons] at ih ⊢
        <;> exact ih
    | messageStop =>
      simp [relayEvents, deltaTexts, upstreamTexts, List.filterMap_cons] at ih ⊢
      exact ih
    | otherEvent =>
      simp [relayEvents, deltaTexts, upstreamTexts, List.filterMap_cons] at ih ⊢
      exact ih

theorem enqueuedFrames_append (a b : List Action) :
    enqueuedFrames (a ++ b) = enqueuedFrames a ++ enqueuedFrames b := by
  simp [enqueuedFrames, List.filterMap_append]

theorem enqueuedFrames_map_enqueue (l : List StreamEvent) :
    enqueuedFrames (l.map Action.enqueue) = l := by
  induction l with
  | nil => rfl
  | cons x xs ih => simpa [enqueuedFrames, List.filterMap_cons] using ih

theorem startBody_frames_none (u : UpstreamOutcome) (usage : Usage)
    (hf : u.failure = none) :
    enqueuedFrames (startBody u usage) = relayEvents usage u.events := by
  unfold startBody
  rw [hf, enqueuedFrames_append, enqueuedFrames_map_enqueue]
  simp [enqueuedFrames]

theorem startBody_frames_some (u : UpstreamOutcome) (usage : Usage) (m : String)
    (hf : u.failure = some m) :
    enqueuedFrames (startBody u usage)
      = relayEvents usage u.events ++ [StreamEvent.error m] := by
  unfold startBody
  rw [hf, enqueuedFrames_append, enqueuedFrames_append, enqueuedFrames_map_enqueue]
  simp [enqueuedFrames]

/-- C1: for every completed stream from a protocol-conformant upstream
run, the relay enqueues exactly one terminal frame (a done or an error),
it is the last frame, and every frame before it is a delta — so zero or
more deltas precede the terminal event and no frames follow it. -/
theorem relay_exactly_one_terminal (u : UpstreamOutcome) (usage : Usage)
    (h : u.wellFormed = true) :
    (enqueuedFrames (startBody u usage)).countP isTerminal = 1
    ∧ ∃ pre t, enqueuedFrames (startBody u usage) = pre ++ [t]
        ∧ isTerminal t = true ∧ pre.all isDeltaFrame = true := by
  cases hf : u.failure with
  | some msg =>
    have h0 : u.events.countP isStop = 0 := by
      simpa [UpstreamOutcome.wellFormed, hf] using h
    rw [startBody_frames_some u usage msg hf]
    refine ⟨?_, relayEvents usage u.events, StreamEvent.error msg, rfl, rfl,
      relayEvents_all_delta usage u.events h0⟩
    rw [List.countP_append, relayEvents_terminal_count, h0]
    rfl
  | none =>
    have h1 : u.events.countP isStop = 1
        ∧ u.events.getLast? = some UpstreamEvent.messageStop := by
      simpa [UpstreamOutcome.wellFormed, hf] using h
    obtain ⟨pre0, hpre⟩ := List.getLast?_eq_some_iff.mp h1.2
    have h0 : pre0.countP isStop = 0 := by
      have hc := h1.1
      rw [hpre, List.countP_append] at hc
      simpa [List.countP_cons, isStop] using hc
    rw [startBody_frames_none u usage hf, hpre, relayEvents_append]
    refine ⟨?_, relayEvents usage pre0, StreamEvent.done usage, by simp [relayEvents], rfl,
      relayEvents_all_delta usage pre0 h0⟩
    rw [List.countP_append, relayEvents_terminal_count, h0]
    rfl

/-- C1 witness at a concrete conformant run: one text delta then
message_stop, no failure. -/
theorem relay_exactly_one_terminal_witness :
    (enqueuedFrames (startBody
        ⟨[UpstreamEvent.contentBlockDelta (UpstreamDelta.textDelta "a"),
          UpstreamEvent.messageStop], none⟩ ⟨1, 2, none⟩)).countP isTerminal = 1
    ∧ ∃ pre t, enqueuedFrames (startBody
        ⟨[UpstreamEvent.contentBlockDelta (UpstreamDelta.textDelta "a"),
          UpstreamEvent.messageStop], none⟩ ⟨1, 2, none⟩) = pre ++ [t]
        ∧ isTerminal t = true ∧ pre.all isDeltaFrame = true :=
  relay_exactly_one_terminal
    ⟨[UpstreamEvent.contentBlockDelta (UpstreamDelta.textDelta "a"),
      UpstreamEvent.messageStop], none⟩ ⟨1, 2, none⟩ (by decide)

/-- C2: for every successful run (iteration did not raise), the relay
emits one delta frame per upstream text fragment, in order, with
exactly that fragment text; hence the concatenation of all delta texts
equals the full assistant reply (the concatenation of the upstream
fragments), with nothing duplicated and nothing missing. -/
theorem relay_delta_concat (u : UpstreamOutcome) (usage : Usage)
    (h : u.failure = none) :
    deltaTexts (enqueuedFrames (startBody u usage)) = upstreamTexts u.events
    ∧ String.join (deltaTexts (enqueuedFrames (startBody u usage)))
        = String.join (upstreamTexts u.events) := by
  have hf := startBody_frames_none u usage h
  rw [hf, deltaTexts_relayEvents]
  exact ⟨rfl, rfl⟩

/-- C2 witness at a concrete successful run with two fragments. -/
theorem relay_delta_concat_witness :
    deltaTexts (enqueuedFrames (startBody
      ⟨[UpstreamEvent.contentBlockDelta (UpstreamDelta.textDelta "he"),
        UpstreamEvent.contentBlockDelta (UpstreamDelta.textDelta "llo"),
        UpstreamEvent.messageStop], none⟩ ⟨1, 2, none⟩))
      = upstreamTexts
          [UpstreamEvent.contentBlockDelta (UpstreamDelta.textDelta "he"),
           UpstreamEvent.contentBlockDelta (UpstreamDelta.textDelta "llo"),
           UpstreamEvent.messageStop]
    ∧ String.join (deltaTexts (enqueuedFrames (startBody
        ⟨[UpstreamEvent.contentBlockDelta (UpstreamDelta.textDelta "he"),
          UpstreamEvent.contentBlockDelta (UpstreamDelta.textDelta "llo"),
          UpstreamEvent.messageStop], none⟩ ⟨1, 2, none⟩)))
        = String.join (upstreamTexts
            [UpstreamEvent.contentBlockDelta (UpstreamDelta.textDelta "he"),
             UpstreamEvent.contentBlockDelta (UpstreamDelta.textDelta "llo"),
             UpstreamEvent.messageStop]) :=
  relay_delta_concat
    ⟨[UpstreamEvent.contentBlockDelta (UpstreamDelta.textDelta "he"),
      UpstreamEvent.contentBlockDelta (UpstreamDelta.textDelta "llo"),
      UpstreamEvent.messageStop], none⟩ ⟨1, 2, none⟩ rfl

/-- C5: on every exit path of the streaming loop the controller is
closed exactly once and the close is the last action; when upstream
iteration raised, the frames contain exactly one error frame, it
carries the raised message, and it is the last frame, so no delta
follows it. -/
theorem relay_close_once (u : UpstreamOutcome) (usage : Usage) :
    closeCount (startBody u usage) = 1
    ∧ (startBody u usage).getLast? = some Action.close
    ∧ ∀ m, u.failure = some m →
        (enqueuedFrames (startBody u usage)).countP isErrorFrame = 1
        ∧ (enqueuedFrames (startBody u usage)).getLast?
            = some (StreamEvent.error m) := by
  refine ⟨?_, ?_, ?_⟩
  · cases hf : u.failure with
    | none =>
      simp only [closeCount, startBody, hf, List.countP_append]
      have hm : ∀ l : List StreamEvent,
          (l.map Action.enqueue).countP isClose = 0 := by
        intro l
        induction l with
        | nil => rfl
        | cons x xs ih => simp [List.countP_cons, isClose, ih]
      rw [hm]
      rfl
    | some m =>
      simp only [closeCount, startBody, hf, List.countP_append]
      have hm : ∀ l : List StreamEvent,
          (l.map Action.enqueue).countP isClose = 0 := by
        intro l
        induction l with
        | nil => rfl
        | cons x xs ih => simp [List.countP_cons, isClose, ih]
      rw [hm]
      rfl
  · unfold startBody
    exact List.getLast?_concat _
  · intro m hf
    rw [startBody_frames_some u usage m hf]
    constructor
    · rw [List.countP_append, relayEvents_no_error]
      rfl
    · exact List.getLast?_concat _

/-- C5 witness at a concrete run that raised after one delta. -/
theorem relay_close_once_witness :
    closeCount (startBody
      ⟨[UpstreamEvent.contentBlockDelta (UpstreamDelta.textDelta "a")], some "boom"⟩
      ⟨1, 2, none⟩) = 1
    ∧ (enqueuedFrames (startBody
        ⟨[UpstreamEvent.contentBlockDelta (UpstreamDelta.textDelta "a")], some "boom"⟩
        ⟨1, 2, none⟩)).countP isErrorFrame = 1
    ∧ (enqueuedFrames (startBody
        ⟨[UpstreamEvent.contentBlockDelta (UpstreamDelta.textDelta "a")], some "boom"⟩
        ⟨1, 2, none⟩)).getLast? = some (StreamEvent.error "boom") := by
  have h := relay_close_once
    ⟨[UpstreamEvent.contentBlockDelta (UpstreamDelta.textDelta "a")], some "boom"⟩
    ⟨1, 2, none⟩
  exact ⟨h.1, (h.2.2 "boom" rfl).1, (h.2.2 "boom" rfl).2⟩

/-- C4: a request whose body is not valid JSON, or whose body fails
validation, is answered with a 400 response carrying an error string,
and no upstream call is made. -/
theorem badRequest_no_upstream (b : Option Json)
    (h : b = none ∨ ∃ j e, b = some j ∧ validateRequest j = ValidationResult.err e) :
    (∃ e, handleChatSetup b = HandleChatResult.badRequest 400 e)
    ∧ upstreamCallOf (handleChatSetup b) = none := by
  rcases h with h | ⟨j, e, hb, hv⟩
  · subst h
    exact ⟨⟨"Invalid JSON", rfl⟩, rfl⟩
  · subst hb
    constructor
    · exact ⟨e, by simp [handleChatSetup, hv]⟩
    · simp [handleChatSetup, hv, upstreamCallOf]

/-- C4 witness: a null body fails validation and yields a 400 with no
upstream call. -/
theorem badRequest_no_upstream_witness :
    (∃ e, handleChatSetup (some Json.null) = HandleChatResult.badRequest 400 e)
    ∧ upstreamCallOf (handleChatSetup (some Json.null)) = none :=
  badRequest_no_upstream (some Json.null)
    (Or.inr ⟨Json.null, "Invalid request body", rfl, rfl⟩)

/-- C10: every upstream call made for a validated request carries
max_tokens fixed at 8192. -/
theorem upstream_max_tokens (b : Option Json) (call : UpstreamCall)
    (h : upstreamCallOf (handleChatSetup b) = some call) :
    call.maxTokens = 8192 := by
  cases b with
  | none => simp [handleChatSetup, upstreamCallOf] at h
  | some j =>
    cases hv : validateRequest j with
    | err e => simp [handleChatSetup, hv, upstreamCallOf] at h
    | ok r =>
      simp [handleChatSetup, hv, upstreamCallOf] at h
      rw [← h]
      rfl

/-- C10 witness at a concrete valid request body. -/
theorem upstream_max_tokens_witness :
    (buildUpstreamCall ⟨"claude-sonnet-4-20250514", "", [⟨Role.user, "hi"⟩]⟩).maxTokens
      = 8192 :=
  upstream_max_tokens
    (some (Json.obj [("model", Json.str "claude-sonnet-4-20250514"),
      ("messages", Json.arr [Json.obj [("role", Json.str "user"),
        ("content", Json.str "hi")]])]))
    (buildUpstreamCall ⟨"claude-sonnet-4-20250514", "", [⟨Role.user, "hi"⟩]⟩) rfl

/-! Helper lemmas relating the validator to the spec mirrors. -/

theorem validateMessages_head (m : Json) (rest : List Json) :
    validateMessages (m :: rest) =
      (match specMsgViolation m with
       | some e => Except.error e
       | none =>
         match validateMessages rest with
         | Except.error e => Except.error e
         | Except.ok ms2 => Except.ok (extractMessage m :: ms2)) := by
  by_cases hobj : jsonIsJsObject m = true
  · cases hrole : roleOf (m.get? "role") with
    | none => simp [validateMessages, specMsgViolation, hobj, hrole]
    | some r =>
      cases hc : m.get? "content" with
      | none => simp [validateMessages, specMsgViolation, hobj, hrole, hc]
      | some jc =>
        cases jc <;>
          simp [validateMessages, specMsgViolation, hobj, hrole, hc, Json.isStr,
            extractMessage, strOf]
  · have hobj2 : jsonIsJsObject m = false := by
      cases h2 : jsonIsJsObject m
      · rfl
      · exact absurd h2 hobj
    simp [validateMessages, specMsgViolation, hobj2]

theorem validateMessages_spec (ms : List Json) :
    validateMessages ms =
      (match firstViolation specMsgViolation ms with
       | some e => Except.error e
       | none => Except.ok (ms.map extractMessage)) := by
  induction ms with
  | nil => rfl
  | cons m rest ih =>
    rw [validateMessages_head, ih]
    cases hv : specMsgViolation m with
    | some e => simp [firstViolation, hv]
    | none =>
      cases hfv : firstViolation specMsgViolation rest with
      | some e => simp [firstViolation, hv, hfv]
      | none => simp [firstViolation, hv, hfv]

theorem supported_model_truthy (o : Option Json)
    (h : isSupportedModelOpt o = true) : truthyOpt o = true := by
  cases o with
  | none => exact absurd h (by simp [isSupportedModelOpt])
  | some j =>
    cases j with
    | str s =>
      have hs : s ∈ MODELS := List.mem_of_elem_eq_true h
      simp [ MODELS ] at hs
      rcases hs with h1 | h1 | h1 <;> subst h1 <;> rfl
    | null => exact absurd h (by simp [isSupportedModelOpt])
    | bool b => exact absurd h (by simp [isSupportedModelOpt])
    | num n => exact absurd h (by simp [isSupportedModelOpt])
    | arr l => exact absurd h (by simp [isSupportedModelOpt])
    | obj f => exact absurd h (by simp [isSupportedModelOpt])

theorem validateRequest_eq_specValidate (j : Json) :
    validateRequest j = specValidate j := by
  unfold validateRequest specValidate specViolation specNormalize
  cases hobj : jsonIsJsObject j with
  | false => simp
  | true =>
    cases hsup : isSupportedModelOpt (j.get? "model") with
    | false => simp [hsup]
    | true =>
      have htr := supported_model_truthy _ hsup
      cases hsys : systemOkB (j.get? "system") with
      | false => simp [hsup, htr, hsys]
      | true =>
        simp only [hsup, htr, hsys, Bool.and_self, Bool.not_true, Bool.false_eq_true,
          if_false, Bool.not_false, if_true]
        cases hmsg : j.get? "messages" with
        | none => simp
        | some jm =>
          cases jm with
          | arr ms =>
            simp only [validateMessages_spec]
            cases hfv : firstViolation specMsgViolation ms with
            | some e => simp [hfv]
            | none => simp [hfv]
          | null => simp
          | bool b => simp
          | num n => simp
          | str s => simp
          | obj f => simp

theorem specMsgViolation_none_iff (m : Json) :
    specMsgViolation m = none ↔ specMsgOkStrict m = true := by
  cases m with
  | obj fields =>
    unfold specMsgViolation specMsgOkStrict
    cases hrole : roleOf ((Json.obj fields).get? "role") with
    | none => simp [jsonIsJsObject, Json.truthy, Json.isObjectType, Json.isObjLiteral, hrole]
    | some r =>
      cases hc : (Json.obj fields).get? "content" with
      | none => simp [jsonIsJsObject, Json.truthy, Json.isObjectType, Json.isObjLiteral, hrole, hc]
      | some jc =>
        cases jc <;>
          simp [jsonIsJsObject, Json.truthy, Json.isObjectType, Json.isObjLiteral, hrole, hc,
            Json.isStr]
  | arr elems =>
    simp [specMsgViolation, specMsgOkStrict, jsonIsJsObject, Json.truthy, Json.isObjectType,
      Json.isObjLiteral, Json.get?, roleOf]
  | null => simp [specMsgViolation, specMsgOkStrict, jsonIsJsObject, Json.truthy, Json.isObjLiteral]
  | bool b =>
    cases b <;>
      simp [specMsgViolation, specMsgOkStrict, jsonIsJsObject, Json.truthy, Json.isObjectType,
        Json.isObjLiteral]
  | num n =>
    simp [specMsgViolation, specMsgOkStrict, jsonIsJsObject, Json.truthy, Json.isObjectType,
      Json.isObjLiteral]
  | str s =>
    simp [specMsgViolation, specMsgOkStrict, jsonIsJsObject, Json.truthy, Json.isObjectType,
      Json.isObjLiteral]

theorem firstViolation_none_iff (ms : List Json) :
    firstViolation specMsgViolation ms = none ↔ ms.all specMsgOkStrict = true := by
  induction ms with
  | nil => simp [firstViolation]
  | cons m rest ih =>
    cases hv : specMsgViolation m with
    | some e =>
      have hm : specMsgOkStrict m = false := by
        cases h2 : specMsgOkStrict m
        · rfl
        · have := (specMsgViolation_none_iff m).mpr h2
          rw [hv] at this
          cases this
      simp [firstViolation, hv, hm]
    | none =>
      have hm : specMsgOkStrict m = true := (specMsgViolation_none_iff m).mp hv
      simp [firstViolation, hv, hm, ih]

theorem specViolation_none_iff (j : Json) :
    specViolation j = none ↔ specWellFormedStrict j = true := by
  cases j with
  | obj fields =>
    unfold specViolation specWellFormedStrict
    cases hsup : isSupportedModelOpt ((Json.obj fields).get? "model") with
    | false => simp [jsonIsJsObject, Json.truthy, Json.isObjectType, Json.isObjLiteral, hsup]
    | true =>
      cases hsys : systemOkB ((Json.obj fields).get? "system") with
      | false =>
        simp [jsonIsJsObject, Json.truthy, Json.isObjectType, Json.isObjLiteral, hsup, hsys]
      | true =>
        cases hmsg : (Json.obj fields).get? "messages" with
        | none => simp [jsonIsJsObject, Json.truthy, Json.isObjectType, Json.isObjLiteral,
            hsup, hsys, hmsg]
        | some jm =>
          cases jm <;>
            simp [jsonIsJsObject, Json.truthy, Json.isObjectType, Json.isObjLiteral,
              hsup, hsys, hmsg, firstViolation_none_iff]
  | arr elems =>
    simp [specViolation, specWellFormedStrict, jsonIsJsObject, Json.truthy, Json.isObjectType,
      Json.isObjLiteral, Json.get?, isSupportedModelOpt]
  | null => simp [specViolation, specWellFormedStrict, jsonIsJsObject, Json.truthy,
      Json.isObjLiteral]
  | bool b =>
    cases b <;>
      simp [specViolation, specWellFormedStrict, jsonIsJsObject, Json.truthy, Json.isObjectType,
        Json.isObjLiteral]
  | num n =>
    simp [specViolation, specWellFormedStrict, jsonIsJsObject, Json.truthy, Json.isObjectType,
      Json.isObjLiteral]
  | str s =>
    simp [specViolation, specWellFormedStrict, jsonIsJsObject, Json.truthy, Json.isObjectType,
      Json.isObjLiteral]

/-- C3 (amended): the validator succeeds exactly on the inputs the spec
describes (an object whose model is supported, whose system is absent
or a string, and whose messages form an array of well-shaped message
objects), returning the normalized request with system defaulted to the
empty string; on failure it returns the error of the first violated
constraint in the order body shape, model, system type,
messages-is-sequence, each message shape/role/content — where the body
and message shape checks follow JavaScript typeof semantics, so a
non-null array also passes them and then fails at the model (resp.
role) constraint. -/
theorem validateRequest_spec_order (j : Json) :
    validateRequest j = specValidate j
    ∧ (validateRequest j).isOk = specWellFormedStrict j := by
  refine ⟨validateRequest_eq_specValidate j, ?_⟩
  rw [validateRequest_eq_specValidate j]
  unfold specValidate
  cases hv : specViolation j with
  | some e =>
    have hns : specWellFormedStrict j = false := by
      cases h2 : specWellFormedStrict j
      · rfl
      · have := (specViolation_none_iff j).mpr h2
        rw [hv] at this
        cases this
    simp [ValidationResult.isOk, hns]
  | none =>
    have hs : specWellFormedStrict j = true := (specViolation_none_iff j).mp hv
    simp [ValidationResult.isOk, hs]

/-- C3 witness: the amended agreement evaluated at a concrete input. -/
theorem validateRequest_spec_order_witness :
    validateRequest (Json.obj []) = specValidate (Json.obj [])
    ∧ (validateRequest (Json.obj [])).isOk = specWellFormedStrict (Json.obj []) :=
  validateRequest_spec_order (Json.obj [])

/-- C3 counterexample to the claim as stated: on a JSON array body the
first violated constraint in the spec order (strict reading, an array is
not an object) is the body shape, yet the code reports the model
constraint, because the code's body-shape check accepts any JavaScript
object, arrays included. -/
theorem validateRequest_array_body_cex :
    validateRequest (Json.arr []) = ValidationResult.err modelErrMsg
    ∧ specValidateStrict (Json.arr []) = ValidationResult.err "Invalid request body"
    ∧ modelErrMsg ≠ "Invalid request body" := by
  refine ⟨rfl, rfl, ?_⟩
  decide

/-! Helper lemmas about the client read loop. -/

theorem feedAll_append_of_raised (chunks : List (List Char)) (st : BufState)
    (bs : BufState) (m : List Char) (more : List (List Char))
    (h : feedAll st chunks = (bs, some m)) :
    feedAll st (chunks ++ more) = (bs, some m) := by
  induction chunks generalizing st with
  | nil =>
    exfalso
    simp [feedAll] at h
  | cons c cs ih =>
    simp only [feedAll, List.cons_append] at h ⊢
    cases hc : feedChunk st c with
    | mk st2 ro =>
      cases ro with
      | none =>
        rw [hc] at h
        exact ih st2 h
      | some m0 =>
        rw [hc] at h
        exact h

/-- C7 (amended): when the client dispatches an error event whose
message passes the read-loop error filter (non-empty and not containing
the substring JSON), the rendered content becomes the synthesized
`Error: ` message replacing any partial text, the read loop terminates
so that no later network data is processed, and the transcript is left
without an assistant entry for the turn; on success, by contrast, the
fully assembled assistant text is appended to the transcript and is
exactly the text whose rendering is displayed. -/
theorem client_error_event_terminal (initial : List Message)
    (chunks more : List (List Char)) :
    (∀ m, (consumeStream initial chunks).raised = some m →
        (consumeStream initial chunks).rendered
            = formatContentL (String.toList "Error: " ++ m)
        ∧ (consumeStream initial chunks).transcript = initial
        ∧ consumeStream initial (chunks ++ more) = consumeStream initial chunks)
    ∧ ((consumeStream initial chunks).raised = none →
        ∃ t, (consumeStream initial chunks).transcript
            = initial ++ [⟨Role.assistant, t⟩]
        ∧ (consumeStream initial chunks).rendered = formatContentL t.toList) := by
  cases hfa : feedAll ⟨[], ⟨[], []⟩⟩ chunks with
  | mk bs ro =>
    cases ro with
    | none =>
      constructor
      · intro m hm
        exfalso
        simp [consumeStream, hfa] at hm
      · intro hn
        refine ⟨String.mk (finishBuffer bs.loop bs.buffer).fullContent, ?_, ?_⟩
        · simp [consumeStream, hfa]
        · simp [consumeStream, hfa]
    | some m0 =>
      constructor
      · intro m hm
        have hm0 : m0 = m := by
          simpa [consumeStream, hfa] using hm
        subst hm0
        refine ⟨by simp [consumeStream, hfa], by simp [consumeStream, hfa], ?_⟩
        have h2 := feedAll_append_of_raised chunks ⟨[], ⟨[], []⟩⟩ bs m0 more hfa
        simp [consumeStream, hfa, h2]
      · intro hn
        exfalso
        simp [consumeStream, hfa] at hn

/-- C7 witness: a propagating error event after which further data is
ignored and the transcript stays without an assistant entry. -/
theorem client_error_event_terminal_witness :
    (consumeStream []
        [String.toList "data: \x7b\"type\":\"error\",\"error\":\"boom\"\x7d\n\n"]).rendered
        = formatContentL (String.toList "Error: " ++ String.toList "boom")
    ∧ (consumeStream []
        [String.toList "data: \x7b\"type\":\"error\",\"error\":\"boom\"\x7d\n\n"]).transcript
        = []
    ∧ consumeStream []
        ([String.toList "data: \x7b\"type\":\"error\",\"error\":\"boom\"\x7d\n\n"]
          ++ [String.toList "data: \x7b\"type\":\"delta\",\"text\":\"late\"\x7d\n\n"])
        = consumeStream []
            [String.toList "data: \x7b\"type\":\"error\",\"error\":\"boom\"\x7d\n\n"] :=
  (client_error_event_terminal []
      [String.toList "data: \x7b\"type\":\"error\",\"error\":\"boom\"\x7d\n\n"]
      [String.toList "data: \x7b\"type\":\"delta\",\"text\":\"late\"\x7d\n\n"]).1
    (String.toList "boom") (by decide)

/-- C7 counterexample to the claim as stated: an error event whose
message contains the substring JSON is dispatched (it appears in the
log) yet the read loop continues — a later delta is processed, the
delta text is rendered instead of the error message, and the failed
turn IS appended to the transcript. -/
theorem client_error_event_cex :
    (consumeStream []
        [String.toList
          "data: \x7b\"type\":\"error\",\"error\":\"Invalid JSON\"\x7d\n\ndata: \x7b\"type\":\"delta\",\"text\":\"later\"\x7d\n\n"]).log
      = [ClientEvent.errorEv "Invalid JSON", ClientEvent.deltaEv "later"]
    ∧ (consumeStream []
        [String.toList
          "data: \x7b\"type\":\"error\",\"error\":\"Invalid JSON\"\x7d\n\ndata: \x7b\"type\":\"delta\",\"text\":\"later\"\x7d\n\n"]).transcript
      = [⟨Role.assistant, "later"⟩]
    ∧ (consumeStream []
        [String.toList
          "data: \x7b\"type\":\"error\",\"error\":\"Invalid JSON\"\x7d\n\ndata: \x7b\"type\":\"delta\",\"text\":\"later\"\x7d\n\n"]).raised
      = none := by
  decide

/-- C8: evaluation at the failing input.  A complete `data: ` line whose
remainder is not valid JSON is skipped and processing continues (no
state change, no log entry, no termination); but the deliberately
raised error of a dispatched error event whose message contains the
substring JSON — here the server-shaped line carrying the message
`Invalid JSON` — is swallowed by the same filter instead of
propagating: the loop goes on and processes the following delta line,
and no escaped error is reported. -/
theorem client_bad_json_skip_eval :
    processLines ⟨[], []⟩
      [String.toList "data: \x7bnot json",
       String.toList "data: \x7b\"type\":\"error\",\"error\":\"Invalid JSON\"\x7d",
       String.toList "data: \x7b\"type\":\"delta\",\"text\":\"x\"\x7d"]
      = (⟨String.toList "x",
          [ClientEvent.errorEv "Invalid JSON", ClientEvent.deltaEv "x"]⟩, none) := by
  decide

/-! Helper lemmas about newline splitting and buffer reassembly. -/

theorem splitNl_ne_nil (s : List Char) : splitNl s ≠ [] := by
  cases s with
  | nil => simp [splitNl]
  | cons c rest =>
    by_cases hc : c = '\n'
    · simp [splitNl, hc]
    · simp only [splitNl, if_neg hc]
      cases h : splitNl rest <;> simp

theorem splitNl_parts_noNl (s : List Char) :
    ∀ part ∈ splitNl s, '\n' ∉ part := by
  induction s with
  | nil =>
    intro part hp
    simp [splitNl] at hp
    subst hp
    simp
  | cons c rest ih =>
    intro part hp
    by_cases hc : c = '\n'
    · simp only [splitNl, if_pos hc] at hp
      rcases List.mem_cons.mp hp with h1 | h1
      · subst h1
        simp
      · exact ih part h1
    · simp only [splitNl, if_neg hc] at hp
      cases h : splitNl rest with
      | nil => exact absurd h (splitNl_ne_nil rest)
      | cons l ls =>
        rw [h] at hp
        rcases List.mem_cons.mp hp with h1 | h1
        · subst h1
          intro hm
          rcases List.mem_cons.mp hm with h2 | h2
          · exact hc h2.symm
          · exact ih l (by rw [h]; exact List.mem_cons_self l ls) h2
        · exact ih part (by rw [h]; exact List.mem_cons_of_mem l h1)

theorem splitNl_of_noNl (s : List Char) (h : '\n' ∉ s) : splitNl s = [s] := by
  induction s with
  | nil => rfl
  | cons c rest ih =>
    have hc : ¬ c = '\n' := by
      intro hh
      exact h (by rw [hh]; exact List.mem_cons_self _ _)
    have hr : '\n' ∉ rest := fun hm => h (List.mem_cons_of_mem c hm)
    simp only [splitNl, if_neg hc, ih hr]

theorem splitNl_append (a : List Char) :
    ∀ (b : List Char) (init : List (List Char)) (l : List Char),
      splitNl a = init ++ [l] →
      splitNl (a ++ b) = init ++ joinHead l (splitNl b) := by
  induction a with
  | nil =>
    intro b init l h
    simp only [splitNl] at h
    cases init with
    | nil =>
      simp only [List.nil_append] at h
      have hl : l = [] := by
        injection h with h1 h2
        exact h1.symm
      subst hl
      cases hb : splitNl b with
      | nil => exact absurd hb (splitNl_ne_nil b)
      | cons h0 t0 => simp [joinHead, hb]
    | cons i init' =>
      exfalso
      injection h with h1 h2
      exact (List.append_ne_nil_of_right_ne_nil init' (by simp)) h2.symm
  | cons c a' ih =>
    intro b init l h
    by_cases hc : c = '\n'
    · simp only [splitNl, if_pos hc] at h
      cases init with
      | nil =>
        exfalso
        simp only [List.nil_append] at h
        injection h with h1 h2
        exact splitNl_ne_nil a' h2
      | cons i init' =>
        injection h with h1 h2
        rw [List.cons_append]
        simp only [splitNl, if_pos hc, ih b init' l h2]
        rw [← h1]
        rfl
    · rw [List.cons_append]
      simp only [splitNl, if_neg hc] at h ⊢
      cases ha : splitNl a' with
      | nil => exact absurd ha (splitNl_ne_nil a')
      | cons l0 ls =>
        rw [ha] at h
        cases init with
        | nil =>
          simp only [List.nil_append] at h
          injection h with h1 h2
          have ha2 : splitNl a' = [] ++ [l0] := by
            rw [ha, h2]
            rfl
          rw [ih b [] l0 ha2]
          cases hb : splitNl b with
          | nil => exact absurd hb (splitNl_ne_nil b)
          | cons hb0 hbt =>
            rw [← h1]
            simp [joinHead, List.cons_append]
        | cons i init' =>
          injection h with h1 h2
          have ha2 : splitNl a' = (l0 :: init') ++ [l] := by
            rw [ha, h2]
            rfl
          rw [ih b (l0 :: init') l ha2, ← h1]
          simp [List.cons_append]

theorem getLastD_append_right (a b : List (List Char)) (d : List Char)
    (h : b ≠ []) : (a ++ b).getLastD d = b.getLastD d := by
  rcases List.eq_nil_or_concat b with h0 | ⟨b', x, h0⟩
  · exact absurd h0 h
  · subst h0
    rw [List.concat_eq_append, ← List.append_assoc, List.getLastD_concat,
      List.getLastD_concat]

theorem joinHead_ne_nil (x : List Char) (ls : List (List Char)) :
    joinHead x ls ≠ [] := by
  cases ls <;> simp [joinHead]

theorem processLines_append (xs ys : List (List Char)) :
    ∀ st : LoopState, processLines st (xs ++ ys) =
      (match processLines st xs with
       | (st2, none) => processLines st2 ys
       | (st2, some m) => (st2, some m)) := by
  induction xs with
  | nil => intro st; simp [processLines]
  | cons x xt ih =>
    intro st
    simp only [List.cons_append, processLines]
    cases hx : processLine st x with
    | mk st2 ro =>
      cases ro with
      | none => exact ih st2
      | some m => rfl

theorem feedAll_single (st : BufState) (c : List Char) :
    feedAll st [c] = feedChunk st c := by
  cases h : feedChunk st c with
  | mk a b => cases b <;> simp [feedAll, h]

theorem feedChunk_buffer_noNl (st : BufState) (c : List Char) :
    '\n' ∉ (feedChunk st c).1.buffer := by
  have hmem : (splitNl (st.buffer ++ c)).getLastD [] ∈ splitNl (st.buffer ++ c) := by
    rcases List.eq_nil_or_concat (splitNl (st.buffer ++ c)) with h | ⟨init, l, h⟩
    · exact absurd h (splitNl_ne_nil _)
    · rw [h, List.concat_eq_append, List.getLastD_concat]
      exact List.mem_append_right _ (by simp)
  have hnoNl := splitNl_parts_noNl _ _ hmem
  simp only [feedChunk]
  cases hp : processLines st.loop (splitNl (st.buffer ++ c)).dropLast with
  | mk lp ro => cases ro <;> simpa using hnoNl

theorem feedChunk_append (buf : List Char) (st : LoopState) (c d : List Char) :
    (∀ bs1, feedChunk ⟨buf, st⟩ c = (bs1, none) →
        feedChunk ⟨buf, st⟩ (c ++ d) = feedChunk bs1 d)
    ∧ (∀ bs1 m, feedChunk ⟨buf, st⟩ c = (bs1, some m) →
        (feedChunk ⟨buf, st⟩ (c ++ d)).1.loop = bs1.loop
        ∧ (feedChunk ⟨buf, st⟩ (c ++ d)).2 = some m) := by
  rcases List.eq_nil_or_concat (splitNl (buf ++ c)) with h0 | ⟨init, l, h0⟩
  · exact absurd h0 (splitNl_ne_nil _)
  rw [List.concat_eq_append] at h0
  have hlmem : l ∈ splitNl (buf ++ c) := by
    rw [h0]
    exact List.mem_append_right _ (by simp)
  have hlnoNl : '\n' ∉ l := splitNl_parts_noNl _ l hlmem
  have hsplit2 : splitNl (buf ++ (c ++ d)) = init ++ joinHead l (splitNl d) := by
    rw [← List.append_assoc]
    exact splitNl_append (buf ++ c) d init l h0
  have hsplitl : splitNl (l ++ d) = joinHead l (splitNl d) := by
    have h1 := splitNl_append l d [] l (by rw [splitNl_of_noNl l hlnoNl]; rfl)
    simpa using h1
  have hcomb : feedChunk ⟨buf, st⟩ (c ++ d)
      = (match processLines st (init ++ (joinHead l (splitNl d)).dropLast) with
         | (lp, none) => (⟨(joinHead l (splitNl d)).getLastD [], lp⟩, none)
         | (lp, some m) => (⟨(joinHead l (splitNl d)).getLastD [], lp⟩, some m)) := by
    simp only [feedChunk, hsplit2,
      List.dropLast_append_of_ne_nil _ (joinHead_ne_nil l (splitNl d)),
      getLastD_append_right init _ [] (joinHead_ne_nil l (splitNl d))]
  have hone : feedChunk ⟨buf, st⟩ c
      = (match processLines st init with
         | (lp, none) => (⟨l, lp⟩, none)
         | (lp, some m) => (⟨l, lp⟩, some m)) := by
    simp only [feedChunk, h0, List.dropLast_concat, List.getLastD_concat]
  constructor
  · intro bs1 hbs1
    rw [hone] at hbs1
    cases hp : processLines st init with
    | mk lp ro =>
      rw [hp] at hbs1
      cases ro with
      | some m => exact absurd hbs1 (by simp)
      | none =>
        have hbs : bs1 = ⟨l, lp⟩ := by
          injection hbs1 with h1 h2
          exact h1.symm
        subst hbs
        rw [hcomb, processLines_append init ((joinHead l (splitNl d)).dropLast) st, hp]
        simp only [feedChunk, hsplitl]
  · intro bs1 m hbs1
    rw [hone] at hbs1
    cases hp : processLines st init with
    | mk lp ro =>
      rw [hp] at hbs1
      cases ro with
      | none => exact absurd hbs1 (by simp)
      | some m0 =>
        have hm : bs1 = ⟨l, lp⟩ ∧ m0 = m := by
          injection hbs1 with h1 h2
          injection h2 with h3
          exact ⟨h1.symm, h3⟩
        obtain ⟨hbs, hm0⟩ := hm
        subst hbs
        subst hm0
        rw [hcomb, processLines_append init ((joinHead l (splitNl d)).dropLast) st, hp]
        exact ⟨rfl, rfl⟩

theorem feedAll_join (chunks : List (List Char)) :
    ∀ (buf : List Char) (st : LoopState), '\n' ∉ buf →
      (feedAll ⟨buf, st⟩ chunks).1.loop
          = (feedChunk ⟨buf, st⟩ (listJoin chunks)).1.loop
      ∧ (feedAll ⟨buf, st⟩ chunks).2 = (feedChunk ⟨buf, st⟩ (listJoin chunks)).2
      ∧ ((feedAll ⟨buf, st⟩ chunks).2 = none →
          (feedAll ⟨buf, st⟩ chunks).1.buffer
            = (feedChunk ⟨buf, st⟩ (listJoin chunks)).1.buffer) := by
  induction chunks with
  | nil =>
    intro buf st hb
    have h1 : feedChunk ⟨buf, st⟩ [] = (⟨buf, st⟩, none) := by
      simp [feedChunk, splitNl_of_noNl buf hb, processLines]
    simp [feedAll, listJoin, h1]
  | cons c cs ih =>
    intro buf st hb
    have hL := feedChunk_append buf st c (listJoin cs)
    cases hc : feedChunk ⟨buf, st⟩ c with
    | mk bs1 ro =>
      cases ro with
      | none =>
        have heq := hL.1 bs1 hc
        have hfa : feedAll ⟨buf, st⟩ (c :: cs) = feedAll bs1 cs := by
          simp [feedAll, hc]
        have hb1 : '\n' ∉ bs1.buffer := by
          have := feedChunk_buffer_noNl ⟨buf, st⟩ c
          rw [hc] at this
          exact this
        have hrec := ih bs1.buffer bs1.loop hb1
        simp only [listJoin]
        rw [hfa, heq]
        exact hrec
      | some m =>
        have h2 := hL.2 bs1 m hc
        have hfa : feedAll ⟨buf, st⟩ (c :: cs) = (bs1, some m) := by
          simp [feedAll, hc]
        simp only [listJoin]
        rw [hfa]
        refine ⟨h2.1.symm, h2.2.symm, ?_⟩
        intro hnone
        simp at hnone

/-- C6: the client stream consumer depends only on the received byte
stream, not on how the network chunks it — feeding the reads one at a
time equals feeding their concatenation as a single read, because only
complete newline-terminated lines are parsed and a trailing partial
line is retained in the buffer for the next read.  In particular a
`data: ` frame split across two reads yields exactly one parsed delta
event carrying the whole fragment, here `hello`. -/
theorem client_buffer_reassembly :
    (∀ (initial : List Message) (chunks : List (List Char)),
        consumeStream initial chunks = consumeStream initial [listJoin chunks])
    ∧ (consumeStream []
        [String.toList "data: \x7b\"type\":\"delta\",\"text\":\"hel",
         String.toList "lo\"\x7d\n\n"]).log = [ClientEvent.deltaEv "hello"]
    ∧ (consumeStream []
        [String.toList "data: \x7b\"type\":\"delta\",\"text\":\"hel",
         String.toList "lo\"\x7d\n\n"]).transcript
        = [⟨Role.assistant, "hello"⟩] := by
  refine ⟨?_, by decide, by decide⟩
  intro initial chunks
  have hG := feedAll_join chunks [] ⟨[], []⟩ (by simp)
  have hsingle : feedAll ⟨[], ⟨[], []⟩⟩ [listJoin chunks]
      = feedChunk ⟨[], ⟨[], []⟩⟩ (listJoin chunks) := feedAll_single _ _
  cases hfa : feedAll ⟨[], ⟨[], []⟩⟩ chunks with
  | mk bs ro =>
    cases hfj : feedChunk ⟨[], ⟨[], []⟩⟩ (listJoin chunks) with
    | mk bs2 ro2 =>
      rw [hfa, hfj] at hG
      obtain ⟨hloop, hro, hbuf⟩ := hG
      simp only at hloop hro
      cases ro with
      | some m =>
        have hro2 : ro2 = some m := hro.symm
        subst hro2
        simp [consumeStream, hfa, hsingle, hfj, hloop]
      | none =>
        have hro2 : ro2 = none := hro.symm
        subst hro2
        have hbuf2 : bs.buffer = bs2.buffer := by
          simpa using hbuf rfl
        simp [consumeStream, hfa, hsingle, hfj, hloop, hbuf2]

/-! Helper lemmas for the rendering safety argument. -/

theorem chainB_iff : ∀ s, chainB s = true ↔ List.Chain' ltNext s
  | [] => by simp [chainB]
  | [a] => by simp [chainB]
  | a :: b :: rest => by
    have ih := chainB_iff (b :: rest)
    by_cases ha : a = '<' <;>
      simp [chainB, List.chain'_cons, ih, ltNextB, ltNext, ha, or_assoc]

theorem noLt_chain (s : List Char) (h : '<' ∉ s) : List.Chain' ltNext s := by
  induction s with
  | nil => exact List.chain'_nil
  | cons a rest ih =>
    cases rest with
    | nil => exact List.chain'_singleton a
    | cons b rest2 =>
      refine List.chain'_cons.mpr ⟨?_, ?_⟩
      · intro hlt
        exact absurd (by rw [← hlt]; exact List.mem_cons_self a _) h
      · exact ih fun hm => h (List.mem_cons_of_mem a hm)

theorem noLt_tagSafe (s : List Char) (h : '<' ∉ s) : tagSafe s := by
  refine ⟨noLt_chain s h, ?_⟩
  intro hl
  exact h (List.mem_of_mem_getLast? hl)

theorem tagSafe_append (a b : List Char) (ha : tagSafe a) (hb : tagSafe b) :
    tagSafe (a ++ b) := by
  constructor
  · refine List.chain'_append.mpr ⟨ha.1, hb.1, ?_⟩
    intro x hx y hy hlt
    exact ((ha.2) (Option.mem_def.mp (hlt ▸ hx))).elim
  · cases hbe : b with
    | nil =>
      rw [List.append_nil]
      exact ha.2
    | cons b0 bt =>
      rcases List.eq_nil_or_concat (b0 :: bt) with h0 | ⟨b', x, h0⟩
      · simp at h0
      · rw [h0, List.concat_eq_append, ← List.append_assoc, List.getLast?_concat]
        have := hb.2
        rw [hbe, h0, List.concat_eq_append, List.getLast?_concat] at this
        exact this

theorem tagSafe_suffix (a b : List Char) (h : tagSafe (a ++ b)) : tagSafe b := by
  constructor
  · exact (List.chain'_append.mp h.1).2.1
  · cases hbe : b with
    | nil => simp
    | cons b0 bt =>
      rcases List.eq_nil_or_concat (b0 :: bt) with h0 | ⟨b', x, h0⟩
      · simp at h0
      · rw [h0, List.concat_eq_append, List.getLast?_concat]
        have h2 := h.2
        rw [hbe, h0, List.concat_eq_append, ← List.append_assoc, List.getLast?_concat] at h2
        exact h2

theorem tagSafe_before (a : List Char) (c : Char) (b : List Char)
    (h : tagSafe (a ++ c :: b)) (hc : ¬(c = 'p' ∨ c = 'c' ∨ c = '/')) :
    tagSafe a := by
  constructor
  · exact (List.chain'_append.mp h.1).1
  · intro hl
    have hbd := (List.chain'_append.mp h.1).2.2
    have := hbd '<' (by rw [hl]; rfl) c rfl
    exact hc (this rfl)

theorem tagSafe_lit_preCode : tagSafe (String.toList "<pre><code>") :=
  ⟨(chainB_iff _).mp (by decide), by decide⟩

theorem tagSafe_lit_codePre : tagSafe (String.toList "</code></pre>") :=
  ⟨(chainB_iff _).mp (by decide), by decide⟩

theorem tagSafe_lit_code : tagSafe (String.toList "<code>") :=
  ⟨(chainB_iff _).mp (by decide), by decide⟩

theorem tagSafe_lit_codeClose : tagSafe (String.toList "</code>") :=
  ⟨(chainB_iff _).mp (by decide), by decide⟩

theorem tagSafe_lit_p : tagSafe (String.toList "<p>") :=
  ⟨(chainB_iff _).mp (by decide), by decide⟩

theorem tagSafe_lit_pClose : tagSafe (String.toList "</p>") :=
  ⟨(chainB_iff _).mp (by decide), by decide⟩

theorem tagSafe_tick : tagSafe [tickChar] :=
  ⟨List.chain'_singleton _, by decide⟩

theorem escapeHtmlL_no_lt (t : List Char) : '<' ∉ escapeHtmlL t := by
  induction t with
  | nil => simp [escapeHtmlL]
  | cons c rest ih =>
    simp only [escapeHtmlL]
    intro hm
    rcases List.mem_append.mp hm with h1 | h1
    · unfold escChar at h1
      by_cases hc1 : c = '&'
      · rw [if_pos hc1] at h1
        exact absurd h1 (by decide)
      · rw [if_neg hc1] at h1
        by_cases hc2 : c = '<'
        · rw [if_pos hc2] at h1
          exact absurd h1 (by decide)
        · rw [if_neg hc2] at h1
          by_cases hc3 : c = '>'
          · rw [if_pos hc3] at h1
            exact absurd h1 (by decide)
          · rw [if_neg hc3] at h1
            rcases List.mem_cons.mp h1 with h2 | h2
            · exact hc2 h2.symm
            · simp at h2
    · exact ih h1

theorem splitFirstTriple_decomp (s : List Char) :
    ∀ pre post, splitFirstTriple s = some (pre, post) →
      s = pre ++ tickChar :: tickChar :: tickChar :: post := by
  induction s with
  | nil => intro pre post h; simp [splitFirstTriple] at h
  | cons c rest ih =>
    intro pre post h
    simp only [splitFirstTriple] at h
    by_cases hp : tripleTick.isPrefixOf (c :: rest) = true
    · rw [if_pos hp] at h
      injection h with h1
      injection h1 with h1 h2
      obtain ⟨suf, hsuf⟩ := (List.isPrefixOf_iff_prefix.mp hp)
      have hc : c = tickChar ∧ rest = tickChar :: tickChar :: suf := by
        simp only [tripleTick] at hsuf
        injection hsuf with ha hb
        exact ⟨ha.symm, hb.symm⟩
      subst h1
      rw [← h2, List.nil_append, hc.1, hc.2]
      simp
    · rw [if_neg hp] at h
      cases hrec : splitFirstTriple rest with
      | none => rw [hrec] at h; cases h
      | some pq =>
        rw [hrec] at h
        cases pq with
        | mk p q =>
          injection h with h1
          injection h1 with h1 h2
          subst h2
          rw [← h1, List.cons_append, ih p q hrec]

theorem splitFirstTick_decomp (s : List Char) :
    ∀ pre post, splitFirstTick s = some (pre, post) →
      s = pre ++ tickChar :: post := by
  induction s with
  | nil => intro pre post h; simp [splitFirstTick] at h
  | cons c rest ih =>
    intro pre post h
    simp only [splitFirstTick] at h
    by_cases hp : c = tickChar
    · rw [if_pos hp] at h
      injection h with h1
      injection h1 with h1 h2
      subst h2
      rw [← h1, List.nil_append, hp]
    · rw [if_neg hp] at h
      cases hrec : splitFirstTick rest with
      | none => rw [hrec] at h; cases h
      | some pq =>
        rw [hrec] at h
        cases pq with
        | mk p q =>
          injection h with h1
          injection h1 with h1 h2
          subst h2
          rw [← h1, List.cons_append, ih p q hrec]

theorem splitFirstParaBreak_cons2 (c c2 : Char) (rest2 : List Char) :
    splitFirstParaBreak (c :: c2 :: rest2)
      = (if c = '\n' && c2 = '\n' then some ([], rest2)
         else
           match splitFirstParaBreak (c2 :: rest2) with
           | some (pre, post) => some (c :: pre, post)
           | none => none) := rfl

theorem splitFirstParaBreak_decomp (s : List Char) :
    ∀ pre post, splitFirstParaBreak s = some (pre, post) →
      s = pre ++ '\n' :: '\n' :: post := by
  induction s with
  | nil => intro pre post h; simp [splitFirstParaBreak] at h
  | cons c rest ih =>
    intro pre post h
    cases hre : rest with
    | nil =>
      subst hre
      simp [splitFirstParaBreak] at h
    | cons c2 rest2 =>
      subst hre
      rw [splitFirstParaBreak_cons2] at h
      by_cases hp : (c = '\n' && c2 = '\n') = true
      · rw [if_pos hp] at h
        injection h with h1
        injection h1 with h1 h2
        subst h2
        have hc : c = '\n' ∧ c2 = '\n' := by
          simpa [Bool.and_eq_true] using hp
        rw [← h1, List.nil_append, hc.1, hc.2]
      · rw [if_neg hp] at h
        cases hrec : splitFirstParaBreak (c2 :: rest2) with
        | none => rw [hrec] at h; cases h
        | some pq =>
          rw [hrec] at h
          cases pq with
          | mk p q =>
            injection h with h1
            injection h1 with h1 h2
            subst h2
            rw [← h1, List.cons_append, ih p q hrec]

theorem dropWhile_head_false (p : Char → Bool) (l : List Char) (x : Char)
    (xs : List Char) (h : l.dropWhile p = x :: xs) : p x = false := by
  induction l with
  | nil => simp [List.dropWhile] at h
  | cons a l2 ih =>
    by_cases hpa : p a = true
    · rw [List.dropWhile_cons, if_pos hpa] at h
      exact ih h
    · rw [List.dropWhile_cons, if_neg hpa] at h
      injection h with h1 h2
      subst h1
      exact Bool.eq_false_iff.mpr hpa

theorem stripLeadNl_no_lt (l : List Char) (h : '<' ∉ l) : '<' ∉ stripLeadNl l := by
  cases l with
  | nil => simp [stripLeadNl]
  | cons c rest =>
    by_cases hc : c = '\n'
    · simp only [stripLeadNl, if_pos hc]
      exact fun hm => h (List.mem_cons_of_mem c hm)
    · simp only [stripLeadNl, if_neg hc]
      exact h

theorem codeBlocksPass_tagSafe (fuel : Nat) :
    ∀ s : List Char, '<' ∉ s → tagSafe (codeBlocksPass fuel s) := by
  induction fuel with
  | zero => intro s hs; exact noLt_tagSafe s hs
  | succ fuel ih =>
    intro s hs
    simp only [codeBlocksPass]
    split
    · exact noLt_tagSafe s hs
    · next pre afterOpen h1 =>
      split
      · exact noLt_tagSafe s hs
      · next code afterClose h2 =>
        have hdec := splitFirstTriple_decomp s pre afterOpen h1
        have hpre : '<' ∉ pre := fun hm => hs (by rw [hdec]; exact List.mem_append_left _ hm)
        have hafter : '<' ∉ afterOpen := fun hm => hs (by
          rw [hdec]
          refine List.mem_append_right _ ?_
          simp [hm])
        have hbody : '<' ∉ stripLeadNl (afterOpen.dropWhile isWordChar) :=
          stripLeadNl_no_lt _
            (fun hm => hafter ((List.dropWhile_sublist isWordChar).subset hm))
        have hdec2 := splitFirstTriple_decomp _ code afterClose h2
        have hcode : '<' ∉ code := fun hm => hbody (by
          rw [hdec2]
          exact List.mem_append_left _ hm)
        have hclose : '<' ∉ afterClose := fun hm => hbody (by
          rw [hdec2]
          refine List.mem_append_right _ ?_
          simp [hm])
        exact tagSafe_append _ _
          (tagSafe_append _ _
            (tagSafe_append _ _
              (tagSafe_append _ _ (noLt_tagSafe _ hpre) tagSafe_lit_preCode)
              (noLt_tagSafe _ hcode))
            tagSafe_lit_codePre)
          (ih afterClose hclose)

theorem inlineCodePass_tagSafe (fuel : Nat) :
    ∀ s : List Char, tagSafe s → tagSafe (inlineCodePass fuel s) := by
  induction fuel with
  | zero => intro s hs; exact hs
  | succ fuel ih =>
    intro s hs
    simp only [inlineCodePass]
    split
    · exact hs
    · next pre after h1 =>
      have hdec := splitFirstTick_decomp s pre after h1
      have hs2 : tagSafe (pre ++ tickChar :: after) := by rw [← hdec]; exact hs
      have hpre : tagSafe pre := tagSafe_before pre tickChar after hs2 (by decide)
      have hta : tagSafe (tickChar :: after) := tagSafe_suffix pre _ hs2
      have hafter : tagSafe after := tagSafe_suffix [tickChar] after hta
      split
      · exact hs
      · next r0 rest2 h2 =>
        by_cases h3 : (after.takeWhile (fun c => c != tickChar)).isEmpty = true
        · rw [if_pos h3]
          exact tagSafe_append _ _ (tagSafe_append _ _ hpre tagSafe_tick) (ih after hafter)
        · rw [if_neg h3]
          have h4 : after.takeWhile (fun c => c != tickChar) ++ r0 :: rest2 = after := by
            rw [← h2]
            exact List.takeWhile_append_dropWhile _ _
          have hr0 : r0 = tickChar := by
            have h5 := dropWhile_head_false (fun c => c != tickChar) after r0 rest2 h2
            simpa using h5
          have hsplit : tagSafe (after.takeWhile (fun c => c != tickChar) ++ r0 :: rest2) := by
            rw [h4]
            exact hafter
          have hcontent : tagSafe (after.takeWhile (fun c => c != tickChar)) :=
            tagSafe_before _ r0 rest2 hsplit (by rw [hr0]; decide)
          have hrest2 : tagSafe rest2 :=
            tagSafe_suffix [r0] rest2 (tagSafe_suffix _ _ hsplit)
          exact tagSafe_append _ _
            (tagSafe_append _ _
              (tagSafe_append _ _
                (tagSafe_append _ _ hpre tagSafe_lit_code) hcontent)
              tagSafe_lit_codeClose)
            (ih rest2 hrest2)

theorem splitParas_tagSafe (fuel : Nat) :
    ∀ s : List Char, tagSafe s → ∀ part ∈ splitParas fuel s, tagSafe part := by
  induction fuel with
  | zero =>
    intro s hs part hp
    simp [splitParas] at hp
    subst hp
    exact hs
  | succ fuel ih =>
    intro s hs part hp
    simp only [splitParas] at hp
    cases h1 : splitFirstParaBreak s with
    | none =>
      rw [h1] at hp
      simp at hp
      subst hp
      exact hs
    | some pq =>
      cases pq with
      | mk pre post =>
        rw [h1] at hp
        have hdec := splitFirstParaBreak_decomp s pre post h1
        have hs2 : tagSafe (pre ++ '\n' :: '\n' :: post) := by rw [← hdec]; exact hs
        have hpre : tagSafe pre := tagSafe_before pre '\n' ('\n' :: post) hs2 (by decide)
        have hpost : tagSafe post :=
          tagSafe_suffix ['\n'] post
            (tagSafe_suffix ['\n'] ('\n' :: post) (tagSafe_suffix pre _ hs2))
        rcases List.mem_cons.mp hp with h2 | h2
        · subst h2
          exact hpre
        · exact ih post hpost part h2

theorem wrapPara_tagSafe (p : List Char) (hp : tagSafe p) : tagSafe (wrapPara p) := by
  unfold wrapPara
  by_cases h : p.any (fun c => !c.isWhitespace) = true
  · rw [if_pos h]
    exact tagSafe_append _ _ (tagSafe_append _ _ tagSafe_lit_p hp) tagSafe_lit_pClose
  · rw [if_neg h]
    exact ⟨List.chain'_nil, by simp⟩

theorem listJoin_tagSafe (ls : List (List Char)) (h : ∀ l ∈ ls, tagSafe l) :
    tagSafe (listJoin ls) := by
  induction ls with
  | nil => exact ⟨List.chain'_nil, by simp [listJoin]⟩
  | cons l rest ih =>
    simp only [listJoin]
    exact tagSafe_append _ _ (h l (List.mem_cons_self l rest))
      (ih fun x hx => h x (List.mem_cons_of_mem l hx))

theorem paragraphPass_tagSafe (s : List Char) (hs : tagSafe s) :
    tagSafe (paragraphPass s) := by
  unfold paragraphPass
  refine listJoin_tagSafe _ ?_
  intro l hl
  rcases List.mem_map.mp hl with ⟨part, hpart, hwrap⟩
  rw [← hwrap]
  exact wrapPara_tagSafe part (splitParas_tagSafe _ s hs part hpart)

theorem formatContentL_tagSafe (t : List Char) : tagSafe (formatContentL t) := by
  unfold formatContentL
  by_cases h : t.isEmpty = true
  · rw [if_pos h]
    exact ⟨List.chain'_nil, by simp⟩
  · rw [if_neg h]
    exact paragraphPass_tagSafe _
      (inlineCodePass_tagSafe _ _
        (codeBlocksPass_tagSafe _ _ (escapeHtmlL_no_lt t)))

/-- C9: rendering escapes before transforming.  The escaping stage
output contains no raw less-than sign at all, so the markdown passes
(the only producers of markup) receive fully escaped text; every
less-than sign of the final render belongs to a trusted tag (it is
followed by p, c or a slash and never dangles at the end), so a script
tag can never appear — in particular the substring rendered for a raw
`<script>` is the escaped entity, also inside a fenced code block, as
the concrete fence example shows. -/
theorem formatContent_escape_safety (t : List Char) :
    '<' ∉ escapeHtmlL t
    ∧ tagSafe (formatContentL t)
    ∧ ¬ (String.toList "<script" <:+: formatContentL t)
    ∧ formatContentL (String.toList "```js\n<b>\n```")
        = String.toList "<p><pre><code>&lt;b&gt;\n</code></pre></p>" := by
  refine ⟨escapeHtmlL_no_lt t, formatContentL_tagSafe t, ?_, by decide⟩
  intro hinf
  have hch : List.Chain' ltNext (String.toList "<script") :=
    List.Chain'.infix (formatContentL_tagSafe t).1 hinf
  have hch2 : List.Chain' ltNext ('<' :: 's' :: String.toList "cript") := hch
  have h5 := (List.chain'_cons.mp hch2).1 rfl
  rcases h5 with h5 | h5 | h5 <;> exact absurd h5 (by decide)

/-- C9 witness: the safety conclusions at a concrete injection attempt. -/
theorem formatContent_escape_safety_witness :
    ¬ (String.toList "<script"
        <:+: formatContentL (String.toList "<script>alert(1)</script>")) :=
  (formatContent_escape_safety (String.toList "<script>alert(1)</script>")).2.2.1

end LocalChat
